import Mathlib

/-!
Verification development for the `ls-override` program (`src/main.go`).

The program pipeline (after the external `ls` subprocess has produced one
raw line per directory entry) is:
  1. recolor entries whose visible name starts with `.` (the hidden-file
     marker), consulting `os.Stat` per such entry;
  2. choose the largest column count whose total width fits the terminal
     (greedy top-down search from `min(N, termWidth)` down to 1);
  3. print the entries in a column-major grid with inter-column padding 2.

Entries are modelled as `List Char` (one `ls` output line; Go measures
`len` in bytes, which coincides with the character count for the ASCII
escape sequences involved).  `os.Stat` is modelled as an oracle
`List Char → Option Bool` (`none` = stat error, `some b` = success with
`IsDir() = b`).  The terminal width query is modelled as `Option Int`
(`none` = error from `term.GetSize`, `some w` = returned width).
-/

namespace LsOverride

/-- A directory entry as read from the subprocess: one raw output line,
possibly containing embedded ANSI color escape sequences. -/
abbrev Entry := List Char

/-- Characters matched by the `[0-9;]` class of the Go regex
`\x1b\[[0-9;]*m` (`ansiRegex` in `main.go`). -/
def isColorParam (c : Char) : Bool := c.isDigit || c = ';'

/-- One-pass scanner implementing
`regexp.MustCompile("\x1b\\[[0-9;]*m").ReplaceAllString(s, "")`
(`stripANSI` in `main.go`), i.e. removal of all leftmost non-overlapping
matches.  `st` is the pending candidate match: `[]` (no candidate),
`['\x1b']` (seen ESC), or `'\x1b' :: '[' :: params` (inside the parameter
run).  A match is completed by `'m'`; on a failing character the pending
characters are emitted verbatim, which is exactly the regex-engine
behaviour because no character strictly inside a candidate
(`'['` or `[0-9;]`) can start a new match, while the failing character
itself can (when it is ESC). -/
def stripRun : List Char → List Char → List Char
  | st, [] => st
  | st, c :: cs =>
    match st with
    | [] => if c = '\x1b' then stripRun ['\x1b'] cs else c :: stripRun [] cs
    | [e] =>
      if c = '[' then stripRun [e, '['] cs
      else if c = '\x1b' then e :: stripRun ['\x1b'] cs
      else e :: c :: stripRun [] cs
    | st₂ =>
      if isColorParam c then stripRun (st₂ ++ [c]) cs
      else if c = 'm' then stripRun [] cs
      else if c = '\x1b' then st₂ ++ stripRun ['\x1b'] cs
      else st₂ ++ c :: stripRun [] cs

/-- `stripANSI` from `main.go`: remove all ANSI color escape sequences. -/
def stripANSI (s : List Char) : List Char := stripRun [] s

/-- `strings.Contains(f, "\x1b[")` from `main.go` line 84: does the raw
entry contain the escape-introducer substring `ESC [`? -/
def containsEscBr : List Char → Bool
  | c :: b :: t => (c == '\x1b' && b == '[') || containsEscBr (b :: t)
  | _ => false

/-- `len(stripANSI(f))` — the visible length used for all width
computations in `main.go`. -/
def visLen (f : Entry) : Nat := (stripANSI f).length

/-- `colors["gray"]` = `"\033[90m"` (`main.go` line 16). -/
def colorGray : List Char := ['\x1b', '[', '9', '0', 'm']

/-- `colors["fadedcyan"]` = `"\033[38;2;70;150;150m"` (`main.go` line 23). -/
def colorFadedCyan : List Char :=
  ['\x1b', '[', '3', '8', ';', '2', ';', '7', '0', ';',
   '1', '5', '0', ';', '1', '5', '0', 'm']

/-- The reset sequence `"\033[0m"` appended after recolored names. -/
def resetCode : List Char := ['\x1b', '[', '0', 'm']

/-- `nameColors["dotdir"]` (`main.go` line 31). -/
def nameColorsDotdir : List Char := colorFadedCyan

/-- `nameColors["dotfile"]` (`main.go` line 32). -/
def nameColorsDotfile : List Char := colorGray

/-- `strings.HasPrefix(nameStripped, ".")` (`main.go` line 78). -/
def startsWithDot : List Char → Bool
  | '.' :: _ => true
  | _ => false

/-- The recolor step for one entry (`main.go` lines 76–89).  `statIsDir`
models `os.Stat`: `none` is a stat error, `some b` is success with
`info.IsDir() = b`.  If the visible name starts with `.`:
a successful stat reporting a directory yields the fixed dotdir color
around the stripped name; otherwise (stat error or non-directory) the
fixed dotfile color is applied only when the raw entry does not already
contain an escape introducer. -/
def recolorEntry (statIsDir : List Char → Option Bool) (f : Entry) : Entry :=
  let nameStripped := stripANSI f
  if startsWithDot nameStripped then
    match statIsDir nameStripped with
    | some true => nameColorsDotdir ++ nameStripped ++ resetCode
    | _ =>
      if containsEscBr f then f
      else nameColorsDotfile ++ nameStripped ++ resetCode
  else f

/-- The whole recolor loop (`main.go` lines 76–89) over the entry list. -/
def recolorFiles (statIsDir : List Char → Option Bool) (files : List Entry) :
    List Entry :=
  files.map (recolorEntry statIsDir)

/-- `getTerminalWidth` (`main.go` lines 193–199): the `term.GetSize`
result is modelled as `Option Int`; the function fails when the query
fails or reports a width below 1. -/
def getTerminalWidth (sizeResult : Option Int) : Option Int :=
  match sizeResult with
  | none => none
  | some w => if w < 1 then none else some w

/-- The width actually used by `main` (`main.go` lines 91–95): the query
result, with fallback 80 on failure. -/
def effectiveWidth (sizeResult : Option Int) : Int :=
  match getTerminalWidth sizeResult with
  | none => 80
  | some w => w

/-- The common shape of the inner loops of `main.go` (lines 126–135,
158–167, 173–187): visit entries at indices `idx, idx+stride, …`
(`k` iterations remain) and stop at the first index `≥ len(files)`
(the `break`). Collects the visited entries in order. For the column
scan (`index = col*rows + row`, `row` increasing) the stride is 1 and
the start is `col*rows`; for the row scan (`index = col*rows + row`,
`col` increasing) the stride is `rows` and the start is the row number. -/
def chunkAux (files : List Entry) (stride : Nat) : Nat → Nat → List Entry
  | 0, _ => []
  | k + 1, idx =>
    if h : idx < files.length then
      files.get ⟨idx, h⟩ :: chunkAux files stride k (idx + stride)
    else []

/-- Running maximum of visible lengths, starting from 0 — the
`maxW` accumulation of `main.go` lines 125–135. -/
def maxVis (l : List Entry) : Nat := l.foldr (fun f m => max (visLen f) m) 0

/-- `colWidths[col]` for the layout with `rows` rows (`main.go`
lines 124–137 and 156–168): the maximum visible length over the
entries of column `col`, i.e. indices `col*rows + row` for
`row < rows` (stopping at the entry count). -/
def colWidth (files : List Entry) (rows col : Nat) : Nat :=
  maxVis (chunkAux files 1 rows (col * rows))

/-- The `padding` constant of `main.go` line 113. -/
def padding : Nat := 2

/-- `totalWidth` computed for a candidate column count (`main.go`
lines 119–144): `rows = ceil(N/tryCols)`, the sum of the per-column
maximum visible widths, plus `padding` after every column except the
last (i.e. `padding * (tryCols - 1)`). -/
def totalWidth (files : List Entry) (tryCols : Nat) : Nat :=
  let rows := (files.length + tryCols - 1) / tryCols
  (((List.range tryCols).map (fun col => colWidth files rows col)).sum)
    + padding * (tryCols - 1)

/-- `maxPossibleCols` (`main.go` lines 105–111): the entry count,
capped by the terminal width, clamped to at least 1. -/
def maxPossibleCols (files : List Entry) (termWidth : Nat) : Nat :=
  let m := min files.length termWidth
  if m < 1 then 1 else m

/-- The search loop of `main.go` lines 115–151: try `tryCols` from the
argument down to 1 and return the first candidate whose total width
fits; `bestCols` stays 1 when none fits. -/
def bestColsAux (files : List Entry) (termWidth : Nat) : Nat → Nat
  | 0 => 1
  | c + 1 =>
    if totalWidth files (c + 1) ≤ termWidth then c + 1
    else bestColsAux files termWidth c

/-- The chosen column count (`bestCols` after the loop of `main.go`
lines 115–151). -/
def bestCols (files : List Entry) (termWidth : Nat) : Nat :=
  bestColsAux files termWidth (maxPossibleCols files termWidth)

/-- Modelled from the spec's words (section 8, first bullet): the chosen
column count is "the largest value ≤ min(N, W) such that the computed
total width ≤ W", with fallback 1 when no candidate fits.
`Nat.findGreatest P n` is the largest `c ≤ n` with `P c` (it never tests
`c = 0`), and 0 when there is none; taking `max … 1` realises the
fallback to one column. -/
def specChosenCols (files : List Entry) (termWidth : Nat) : Nat :=
  max (Nat.findGreatest (fun c => totalWidth files c ≤ termWidth)
        (min files.length termWidth)) 1

/-- `rows` for the chosen layout (`main.go` line 154). -/
def chosenRows (files : List Entry) (termWidth : Nat) : Nat :=
  (files.length + bestCols files termWidth - 1) / bestCols files termWidth

/-- The entries printed on row `r` of the final grid, in order
(`main.go` lines 173–188): columns `0, 1, …` contribute the entry at
index `col*rows + r`, stopping at the first index `≥ len(files)`. -/
def gridRow (files : List Entry) (rows cols r : Nat) : List Entry :=
  chunkAux files rows cols r

/-- The grid of entries actually rendered (`main.go` lines 171–190):
one row of entries per printed line. -/
def grid (files : List Entry) (termWidth : Nat) : List (List Entry) :=
  (List.range (chosenRows files termWidth)).map
    (fun r => gridRow files (chosenRows files termWidth)
      (bestCols files termWidth) r)

/-- Lookup of the grid cell at row `r`, column position `c`. -/
def gridCell (files : List Entry) (termWidth r c : Nat) : Option Entry :=
  ((grid files termWidth).get? r).bind (fun row => row.get? c)

/-- `colWidths[col] - displayLen + padding` (`main.go` line 182),
computed in `Int` like Go's `int` arithmetic. -/
def sepSpacesRaw (files : List Entry) (rows col : Nat) (f : Entry) : Int :=
  (colWidth files rows col : Int) - (visLen f : Int) + (padding : Int)

/-- The separator width actually written (`main.go` lines 182–185):
the raw value clamped below by 1. -/
def sepSpaces (files : List Entry) (rows col : Nat) (f : Entry) : Int :=
  let spaces := sepSpacesRaw files rows col f
  if spaces < 1 then 1 else spaces

/-- The characters written for row `r` (`main.go` lines 171–189):
iterate `col` with `k` iterations remaining, write the entry at
`col*rows + r` (stopping at the first index `≥ len(files)`), followed —
for every column except the last candidate column — by the separator
spaces. -/
def renderRowAux (files : List Entry) (rows cols r : Nat) :
    Nat → Nat → List Char
  | 0, _ => []
  | k + 1, col =>
    if h : col * rows + r < files.length then
      files.get ⟨col * rows + r, h⟩
        ++ ((if col < cols - 1 then
              List.replicate (sepSpaces files rows col
                (files.get ⟨col * rows + r, h⟩)).toNat ' '
            else [])
          ++ renderRowAux files rows cols r k (col + 1))
    else []

/-- The full list of printed lines (`main.go` lines 97–190): nothing is
printed for an empty entry list (line 97–99), otherwise one line per
row of the chosen layout. -/
def renderLines (files : List Entry) (termWidth : Nat) : List (List Char) :=
  if files.length = 0 then []
  else
    (List.range (chosenRows files termWidth)).map
      (fun r => renderRowAux files (chosenRows files termWidth)
        (bestCols files termWidth) r (bestCols files termWidth) 0)

/-- Entry list with visible widths 1, 1, 9, 9, 1, 1 — used to exhibit
non-monotonicity of `totalWidth` in the column count. -/
def exFilesC4 : List Entry :=
  [['a'], ['a'],
   ['b', 'b', 'b', 'b', 'b', 'b', 'b', 'b', 'b'],
   ['b', 'b', 'b', 'b', 'b', 'b', 'b', 'b', 'b'],
   ['a'], ['a']]

/-- Small demonstration entry list used by layout witnesses. -/
def demoFiles : List Entry := [['a'], ['b'], ['c']]

end LsOverride

namespace LsOverride

/-! ## Lemmas about the ANSI stripper -/

theorem stripRun_reset (st : List Char) : stripRun st resetCode = st := by
  match st with
  | [] => rfl
  | [e] => rfl
  | a :: b :: t => simp [resetCode, stripRun, isColorParam]

theorem stripRun_append_reset (s : List Char) :
    ∀ st, stripRun st (s ++ resetCode) = stripRun st s := by
  induction s with
  | nil => intro st; simpa using stripRun_reset st
  | cons c cs ih =>
    intro st
    match st with
    | [] =>
      by_cases h : c = '\x1b' <;> simp [stripRun, h, ih]
    | [e] =>
      by_cases h1 : c = '[' <;> by_cases h2 : c = '\x1b' <;>
        simp [stripRun, h1, h2, ih]
    | a :: b :: t =>
      by_cases h1 : isColorParam c <;> by_cases h2 : c = 'm' <;>
        by_cases h3 : c = '\x1b' <;>
        simp [stripRun, h1, h2, h3, ih]

theorem stripRun_esc (cs : List Char) (h : cs.head? ≠ some '[') :
    stripRun ['\x1b'] cs = '\x1b' :: stripRun [] cs := by
  match cs with
  | [] => rfl
  | c :: cs2 =>
    have hc : c ≠ '[' := by simpa using h
    by_cases h2 : c = '\x1b' <;> simp [stripRun, hc, h2]

theorem containsEscBr_cons_false {c : Char} {cs : List Char}
    (h : containsEscBr (c :: cs) = false) :
    containsEscBr cs = false ∧ (c = '\x1b' → cs.head? ≠ some '[') := by
  match cs with
  | [] => exact ⟨rfl, by intro _ hh; simp at hh⟩
  | b :: t =>
    simp only [containsEscBr, Bool.or_eq_false_iff, Bool.and_eq_false_iff,
      beq_eq_false_iff_ne, ne_eq] at h
    refine ⟨h.2, ?_⟩
    intro hc hh
    simp only [List.head?_cons, Option.some.injEq] at hh
    rcases h.1 with h1 | h1
    · exact h1 hc
    · exact h1 hh

/-- A string without the escape-introducer substring is a fixed point of
the stripper. -/
theorem strip_of_not_contains (s : List Char)
    (h : containsEscBr s = false) : stripANSI s = s := by
  induction s with
  | nil => rfl
  | cons c cs ih =>
    obtain ⟨h2, h1⟩ := containsEscBr_cons_false h
    have hcs := ih h2
    by_cases hc : c = '\x1b'
    · subst hc
      show stripRun ['\x1b'] cs = _
      rw [stripRun_esc cs (h1 rfl)]
      exact congrArg _ hcs
    · show (if c = '\x1b' then stripRun ['\x1b'] cs else c :: stripRun [] cs) = _
      rw [if_neg hc]
      exact congrArg _ hcs

/-- Prepending the gray color code does not change the stripped text. -/
theorem strip_gray_append (s : List Char) :
    stripANSI (colorGray ++ s) = stripANSI s := rfl

/-- Prepending the faded-cyan color code does not change the stripped
text. -/
theorem strip_fadedcyan_append (s : List Char) :
    stripANSI (colorFadedCyan ++ s) = stripANSI s := rfl

/-- Appending the reset code to an introducer-free string strips back to
the string itself. -/
theorem strip_wrap_reset (s : List Char) (h : containsEscBr s = false) :
    stripANSI (s ++ resetCode) = s := by
  show stripRun [] (s ++ resetCode) = s
  rw [stripRun_append_reset]
  exact strip_of_not_contains s h

end LsOverride

namespace LsOverride

/-! ## Recoloring: claims C3, C5, C6, C7 -/

/-- Wrapping an introducer-free string in the dotdir color and the reset
code strips back to the string itself. -/
theorem strip_dotdir_wrap (s : List Char) (h : containsEscBr s = false) :
    stripANSI (nameColorsDotdir ++ s ++ resetCode) = s := by
  have h1 : nameColorsDotdir ++ s ++ resetCode
      = colorFadedCyan ++ (s ++ resetCode) := by
    simp [nameColorsDotdir, List.append_assoc]
  rw [h1, strip_fadedcyan_append, strip_wrap_reset s h]

/-- Wrapping an introducer-free string in the dotfile color and the
reset code strips back to the string itself. -/
theorem strip_dotfile_wrap (s : List Char) (h : containsEscBr s = false) :
    stripANSI (nameColorsDotfile ++ s ++ resetCode) = s := by
  have h1 : nameColorsDotfile ++ s ++ resetCode
      = colorGray ++ (s ++ resetCode) := by
    simp [nameColorsDotfile, List.append_assoc]
  rw [h1, strip_gray_append, strip_wrap_reset s h]

/-- C5: an entry whose visible name begins with a period and whose stat
succeeds reporting a directory is replaced by the fixed hidden-directory
color wrapped around the stripped visible name (followed by the reset
code), overriding any color codes the raw entry carried. -/
theorem C5_hidden_dir_overrides (statIsDir : List Char → Option Bool)
    (f : Entry) (hdot : startsWithDot (stripANSI f) = true)
    (hdir : statIsDir (stripANSI f) = some true) :
    recolorEntry statIsDir f = nameColorsDotdir ++ stripANSI f ++ resetCode := by
  unfold recolorEntry
  simp [hdot, hdir]

/-- Witness for C5: a pre-colored hidden directory entry is rewrapped in
the dotdir color. -/
theorem C5_witness :
    recolorEntry (fun _ => some true)
      ['\x1b', '[', '3', '4', 'm', '.', 'd', '\x1b', '[', '0', 'm']
      = nameColorsDotdir ++ ['.', 'd'] ++ resetCode := by
  rw [C5_hidden_dir_overrides (fun _ => some true) _ (by decide) rfl]
  decide

/-- C6: an entry whose visible name begins with a period, that is not a
directory (stat does not succeed with `IsDir`), and whose raw string
already contains the escape introducer, is left unchanged. -/
theorem C6_colored_file_untouched (statIsDir : List Char → Option Bool)
    (f : Entry) (hdot : startsWithDot (stripANSI f) = true)
    (hnotdir : statIsDir (stripANSI f) ≠ some true)
    (hcol : containsEscBr f = true) :
    recolorEntry statIsDir f = f := by
  unfold recolorEntry
  cases hstat : statIsDir (stripANSI f) with
  | none => simp [hdot, hcol]
  | some b =>
    cases b with
    | true => exact absurd hstat hnotdir
    | false => simp [hdot, hcol]

/-- Witness for C6: a pre-colored hidden non-directory entry stays
exactly as `ls` produced it. -/
theorem C6_witness :
    recolorEntry (fun _ => some false)
      ['\x1b', '[', '3', '4', 'm', '.', 'd', '\x1b', '[', '0', 'm']
      = ['\x1b', '[', '3', '4', 'm', '.', 'd', '\x1b', '[', '0', 'm'] :=
  C6_colored_file_untouched (fun _ => some false) _ (by decide)
    (by decide) (by decide)

/-- Counterexample to C3 as stated: for the uncolored hidden entry
`".a"`, a failing stat does **not** leave the entry unchanged — the code
falls into the non-directory branch and applies the dotfile color. -/
theorem C3_counterexample :
    recolorEntry (fun _ => none) ['.', 'a'] ≠ ['.', 'a'] := by decide

/-- C3 (amended): for an entry whose visible name begins with a period,
when the stat fails the entry is treated like a non-directory: it is
left unchanged exactly when the raw entry already contains the escape
introducer, and otherwise it is recolored with the fixed hidden-file
color. -/
theorem C3_amended_stat_failure (statIsDir : List Char → Option Bool)
    (f : Entry) (hdot : startsWithDot (stripANSI f) = true)
    (hstat : statIsDir (stripANSI f) = none) :
    recolorEntry statIsDir f =
      if containsEscBr f then f
      else nameColorsDotfile ++ stripANSI f ++ resetCode := by
  unfold recolorEntry
  simp [hdot, hstat]

/-- Witness for the amended C3: an uncolored hidden entry with a failing
stat gets the dotfile color. -/
theorem C3_amended_witness :
    recolorEntry (fun _ => none) ['.', 'a']
      = nameColorsDotfile ++ ['.', 'a'] ++ resetCode := by
  rw [C3_amended_stat_failure (fun _ => none) _ (by decide) rfl]
  decide

/-- Counterexample to C7 as stated: the entry `".\x1b[\x1b[mm"` strips
to `".\x1b[m"` (the stripper is not idempotent), so recoloring it as a
hidden directory changes the stripped text from `".\x1b[m"` to `"."`. -/
theorem C7_counterexample :
    stripANSI (recolorEntry (fun _ => some true)
        ['.', '\x1b', '[', '\x1b', '[', 'm', 'm'])
      ≠ stripANSI ['.', '\x1b', '[', '\x1b', '[', 'm', 'm'] := by decide

/-- C7 (amended): for every entry whose stripped text contains no
residual escape introducer (true of every entry built of plain text and
complete color codes), recoloring preserves the stripped visible text. -/
theorem C7_amended_visible_preserved (statIsDir : List Char → Option Bool)
    (f : Entry) (h : containsEscBr (stripANSI f) = false) :
    stripANSI (recolorEntry statIsDir f) = stripANSI f := by
  unfold recolorEntry
  by_cases hdot : startsWithDot (stripANSI f) = true
  · cases hstat : statIsDir (stripANSI f) with
    | none =>
      by_cases hcf : containsEscBr f = true
      · simp [hdot, hstat, hcf]
      · simp only [Bool.not_eq_true] at hcf
        simp only [hdot, hstat, if_true, hcf, Bool.false_eq_true, if_false]
        rw [strip_dotfile_wrap _ h]
    | some b =>
      cases b with
      | true =>
        simp only [hdot, hstat, if_true]
        rw [strip_dotdir_wrap _ h]
      | false =>
        by_cases hcf : containsEscBr f = true
        · simp [hdot, hstat, hcf]
        · simp only [Bool.not_eq_true] at hcf
          simp only [hdot, hstat, if_true, hcf, Bool.false_eq_true, if_false]
          rw [strip_dotfile_wrap _ h]
  · simp only [Bool.not_eq_true] at hdot
    simp [hdot]

/-- Witness for the amended C7: recoloring the plain hidden entry `".a"`
as a directory keeps its stripped text. -/
theorem C7_amended_witness :
    stripANSI (recolorEntry (fun _ => some true) ['.', 'a'])
      = stripANSI ['.', 'a'] :=
  C7_amended_visible_preserved (fun _ => some true) ['.', 'a'] (by decide)

end LsOverride
namespace LsOverride

theorem chunkAux_get (files : List Entry) (stride : Nat) :
    ∀ (k idx j : Nat),
      (chunkAux files stride k idx).get? j =
        if j < k ∧ idx + j * stride < files.length then
          some (files.getD (idx + j * stride) [])
        else none := by
  intro k
  induction k with
  | zero => intro idx j; simp [chunkAux]
  | succ k ih =>
    intro idx j
    by_cases h : idx < files.length
    · rw [chunkAux, dif_pos h]
      cases j with
      | zero =>
        simp only [List.get?_cons_zero]
        rw [if_pos (by constructor <;> omega)]
        have hsome : files[idx]? = some files[idx] := List.getElem?_eq_getElem h
        simp [List.getD_eq_getElem?_getD, hsome, List.get_eq_getElem]
      | succ j =>
        simp only [List.get?_cons_succ]
        rw [ih (idx + stride) j]
        have harith : idx + stride + j * stride = idx + (j + 1) * stride := by
          ring
        rw [harith]
        have hiff : (j < k ∧ idx + (j + 1) * stride < files.length) ↔
            (j + 1 < k + 1 ∧ idx + (j + 1) * stride < files.length) := by
          omega
        by_cases hc : j + 1 < k + 1 ∧ idx + (j + 1) * stride < files.length
        · rw [if_pos (hiff.mpr hc), if_pos hc]
        · rw [if_neg (fun hh => hc (hiff.mp hh)), if_neg hc]
    · rw [chunkAux, dif_neg h]
      have : ¬(j < k + 1 ∧ idx + j * stride < files.length) := by
        intro hh
        exact h (by omega)
      simp [this]

theorem chunkAux_one (files : List Entry) :
    ∀ (k idx : Nat), chunkAux files 1 k idx = (files.drop idx).take k := by
  intro k
  induction k with
  | zero => intro idx; simp [chunkAux]
  | succ k ih =>
    intro idx
    by_cases h : idx < files.length
    · rw [chunkAux, dif_pos h, ih (idx + 1)]
      rw [List.drop_eq_getElem_cons h, List.take_succ_cons]
      simp [List.get_eq_getElem]
    · rw [chunkAux, dif_neg h]
      rw [List.drop_eq_nil_of_le (by omega), List.take_nil]

theorem le_maxVis_of_mem {f : Entry} {l : List Entry} (h : f ∈ l) :
    visLen f ≤ maxVis l := by
  induction l with
  | nil => cases h
  | cons a t ih =>
    rcases List.mem_cons.mp h with h1 | h1
    · subst h1; exact le_max_left _ _
    · exact le_trans (ih h1) (le_max_right _ _)

theorem maxVis_cases (l : List Entry) :
    maxVis l = 0 ∨ ∃ f ∈ l, maxVis l = visLen f := by
  induction l with
  | nil => exact Or.inl rfl
  | cons a t ih =>
    have hu : maxVis (a :: t) = max (visLen a) (maxVis t) := rfl
    rcases le_or_lt (maxVis t) (visLen a) with h | h
    · right
      exact ⟨a, List.mem_cons_self a t, by rw [hu, Nat.max_eq_left h]⟩
    · rcases ih with h0 | ⟨f, hf, he⟩
      · exact (by omega : False).elim
      · right
        exact ⟨f, List.mem_cons_of_mem a hf,
          by rw [hu, Nat.max_eq_right (le_of_lt h), he]⟩

theorem le_sum_of_mem {x : Nat} {l : List Nat} (h : x ∈ l) : x ≤ l.sum := by
  induction l with
  | nil => cases h
  | cons a t ih =>
    rcases List.mem_cons.mp h with h1 | h1
    · subst h1; simp
    · calc x ≤ t.sum := ih h1
        _ ≤ (a :: t).sum := by simp

theorem visLen_le_colWidth (files : List Entry) {rows col r : Nat}
    (hr : r < rows) (hidx : col * rows + r < files.length) :
    visLen (files.getD (col * rows + r) []) ≤ colWidth files rows col := by
  have h := chunkAux_get files 1 rows (col * rows) r
  rw [if_pos (by constructor <;> omega)] at h
  have hmem := List.get?_mem h
  have : col * rows + r * 1 = col * rows + r := by ring
  rw [this] at hmem
  exact le_maxVis_of_mem hmem

end LsOverride
namespace LsOverride

/-- With a single column the layout has `N` rows and the single column
width is the global maximum visible length. -/
theorem totalWidth_one (files : List Entry) :
    totalWidth files 1 = maxVis files := by
  show ((List.range 1).map (fun col => colWidth files ((files.length + 1 - 1) / 1) col)).sum + padding * (1 - 1) = maxVis files
  have h1 : List.range 1 = [0] := rfl
  simp only [h1, List.map_cons, List.map_nil, List.sum_cons,
    List.sum_nil, Nat.add_sub_cancel, Nat.div_one]
  show colWidth files files.length 0 + padding * 0 = maxVis files
  rw [colWidth, chunkAux_one]
  simp

/-- One full layout fact: `N ≤ C * ceil(N/C)`. -/
theorem le_cols_mul_rows (N C : Nat) (hC : 1 ≤ C) :
    N ≤ C * ((N + C - 1) / C) := by
  have h1 := Nat.div_add_mod (N + C - 1) C
  have h2 : (N + C - 1) % C < C := Nat.mod_lt _ (by omega)
  omega

/-- The chosen rows count is positive for a non-empty entry list. -/
theorem rows_pos (N C : Nat) (hN : 1 ≤ N) (hC : 1 ≤ C) :
    1 ≤ (N + C - 1) / C := by
  rw [Nat.le_div_iff_mul_le (by omega)]
  omega

/-- Counterexample to C4 as stated: with visible widths 1, 1, 9, 9, 1, 1
the total width drops from 20 at two columns to 15 at three columns, so
the computed total width is **not** monotone in the candidate column
count. -/
theorem C4_counterexample :
    totalWidth exFilesC4 3 < totalWidth exFilesC4 2 := by decide

/-- C4 (amended): the total width is not monotone in the candidate
column count, but it is bounded below by the single-column total width
(the global maximum visible length) at every candidate count. -/
theorem C4_amended_lower_bound (files : List Entry) (C : Nat)
    (hne : files ≠ []) (hC : 1 ≤ C) :
    totalWidth files 1 ≤ totalWidth files C := by
  rw [totalWidth_one]
  rcases maxVis_cases files with h0 | ⟨f, hf, he⟩
  · omega
  · rw [he]
    obtain ⟨⟨i, hi⟩, rfl⟩ := List.mem_iff_get.mp hf
    have hN : 1 ≤ files.length := by
      cases files with
      | nil => exact absurd rfl hne
      | cons a t => simp
    set N := files.length with hNdef
    set rows := (N + C - 1) / C with hrows
    have hrpos : 1 ≤ rows := rows_pos N C hN hC
    have hNle : N ≤ C * rows := le_cols_mul_rows N C hC
    set c0 := i / rows with hc0
    set r0 := i % rows with hr0
    have hr0lt : r0 < rows := Nat.mod_lt _ (by omega)
    have hc0lt : c0 < C := by
      rw [hc0, Nat.div_lt_iff_lt_mul (by omega)]
      have hcomm : rows * C = C * rows := Nat.mul_comm _ _
      omega
    have hieq : c0 * rows + r0 = i := by
      rw [hc0, hr0, Nat.mul_comm]
      exact Nat.div_add_mod i rows
    have hidx : c0 * rows + r0 < N := by rw [hieq]; exact hi
    have h1 : visLen (files.getD (c0 * rows + r0) []) ≤ colWidth files rows c0 :=
      visLen_le_colWidth files hr0lt hidx
    have hgd : files.getD (c0 * rows + r0) [] = files.get ⟨i, hi⟩ := by
      rw [hieq]
      have hsome : files[i]? = some files[i] := List.getElem?_eq_getElem hi
      simp [List.getD_eq_getElem?_getD, hsome, List.get_eq_getElem]
    rw [hgd] at h1
    have h2 : colWidth files rows c0 ≤
        ((List.range C).map (fun col => colWidth files rows col)).sum := by
      apply le_sum_of_mem
      exact List.mem_map_of_mem _ (List.mem_range.mpr hc0lt)
    calc visLen (files.get ⟨i, hi⟩)
        ≤ colWidth files rows c0 := h1
      _ ≤ ((List.range C).map (fun col => colWidth files rows col)).sum := h2
      _ ≤ totalWidth files C := Nat.le_add_right _ _

/-- Witness for the amended C4. -/
theorem C4_amended_witness :
    totalWidth exFilesC4 1 ≤ totalWidth exFilesC4 3 :=
  C4_amended_lower_bound exFilesC4 3 (by decide) (by decide)

end LsOverride
namespace LsOverride

/-- The top-down search loop returns the largest fitting candidate in
`[1, k]`, with fallback 1 — i.e. `Nat.findGreatest` clamped to 1. -/
theorem bestColsAux_eq_findGreatest (files : List Entry) (W : Nat) :
    ∀ k, bestColsAux files W k =
      max (Nat.findGreatest (fun c => totalWidth files c ≤ W) k) 1 := by
  intro k
  induction k with
  | zero => simp [bestColsAux, Nat.findGreatest_zero]
  | succ k ih =>
    by_cases h : totalWidth files (k + 1) ≤ W
    · rw [bestColsAux, if_pos h, Nat.findGreatest_succ, if_pos h]
      omega
    · rw [bestColsAux, if_neg h, Nat.findGreatest_succ, if_neg h, ih]

/-- C1: for a non-empty entry list the chosen column count equals the
spec's description — the largest candidate `c` with
`1 ≤ c ≤ min N W` whose total width fits, and 1 when none fits
(`specChosenCols`). -/
theorem C1_search_is_greatest_fit (files : List Entry) (W : Nat)
    (hne : files ≠ []) :
    bestCols files W = specChosenCols files W := by
  have hN : 1 ≤ files.length := by
    cases files with
    | nil => exact absurd rfl hne
    | cons a t => simp
  rw [bestCols, specChosenCols, maxPossibleCols]
  by_cases hm : min files.length W < 1
  · rw [if_pos hm]
    rw [bestColsAux_eq_findGreatest]
    have hm0 : min files.length W = 0 := by omega
    rw [hm0, Nat.findGreatest_zero]
    have h1 := Nat.findGreatest_le (P := fun c => totalWidth files c ≤ W) 1
    omega
  · rw [if_neg hm]
    exact bestColsAux_eq_findGreatest files W _

/-- Witness for C1 at a concrete list and width. -/
theorem C1_witness : bestCols demoFiles 20 = specChosenCols demoFiles 20 :=
  C1_search_is_greatest_fit demoFiles 20 (by decide)

end LsOverride
namespace LsOverride

/-- The chosen column count is always at least 1. -/
theorem bestCols_pos (files : List Entry) (W : Nat) :
    1 ≤ bestCols files W := by
  rw [bestCols, bestColsAux_eq_findGreatest]
  omega

/-- The chosen row count is at least 1 for a non-empty entry list. -/
theorem chosenRows_pos (files : List Entry) (W : Nat) (hne : files ≠ []) :
    1 ≤ chosenRows files W := by
  apply rows_pos
  · cases files with
    | nil => exact absurd rfl hne
    | cons a t => simp
  · exact bestCols_pos files W

/-- Row lookup in the rendered grid. -/
theorem grid_get (files : List Entry) (W r : Nat) :
    (grid files W).get? r =
      if r < chosenRows files W then
        some (gridRow files (chosenRows files W) (bestCols files W) r)
      else none := by
  rw [grid]
  by_cases hr : r < chosenRows files W
  · rw [if_pos hr, List.get?_map, List.get?_range hr]
    rfl
  · rw [if_neg hr]
    apply List.get?_eq_none.mpr
    simp only [List.length_map, List.length_range]
    omega

/-- C2: for a non-empty entry list, with chosen column count `C` and row
count `rows = ceil(N/C)`, the grid cell at row `r`, position `c` holds
the entry of index `c*rows + r` exactly when `r < rows`, `c < C` and the
index is within the entry count, and is empty otherwise; in particular
the entry at index `i` appears at row `i mod rows`, column `i / rows`.
Since `i ↦ (i mod rows, i / rows)` is injective, every entry occupies
exactly one cell and indices beyond the entry count are omitted. -/
theorem C2_grid_column_major (files : List Entry) (W : Nat)
    (hne : files ≠ []) :
    (∀ r c, gridCell files W r c =
      if r < chosenRows files W ∧ c < bestCols files W ∧
          c * chosenRows files W + r < files.length then
        some (files.getD (c * chosenRows files W + r) [])
      else none)
    ∧ ∀ i, i < files.length →
        gridCell files W (i % chosenRows files W) (i / chosenRows files W)
          = some (files.getD i []) := by
  have hN : 1 ≤ files.length := by
    cases files with
    | nil => exact absurd rfl hne
    | cons a t => simp
  have hC : 1 ≤ bestCols files W := bestCols_pos files W
  have hrows : 1 ≤ chosenRows files W := chosenRows_pos files W hne
  have hNle : files.length ≤ bestCols files W * chosenRows files W :=
    le_cols_mul_rows files.length (bestCols files W) hC
  have hcell : ∀ r c, gridCell files W r c =
      if r < chosenRows files W ∧ c < bestCols files W ∧
          c * chosenRows files W + r < files.length then
        some (files.getD (c * chosenRows files W + r) [])
      else none := by
    intro r c
    rw [gridCell, grid_get]
    by_cases hr : r < chosenRows files W
    · rw [if_pos hr]
      show (chunkAux files (chosenRows files W) (bestCols files W) r).get? c
        = _
      rw [chunkAux_get]
      have harith : r + c * chosenRows files W
          = c * chosenRows files W + r := by ring
      rw [harith]
      by_cases hcc : c < bestCols files W ∧
          c * chosenRows files W + r < files.length
      · rw [if_pos hcc, if_pos ⟨hr, hcc.1, hcc.2⟩]
      · rw [if_neg hcc, if_neg (by tauto)]
    · rw [if_neg hr, if_neg (by tauto)]
      rfl
  refine ⟨hcell, ?_⟩
  intro i hi
  have hr : i % chosenRows files W < chosenRows files W :=
    Nat.mod_lt _ (by omega)
  have hc : i / chosenRows files W < bestCols files W := by
    rw [Nat.div_lt_iff_lt_mul (by omega)]
    have hcomm : chosenRows files W * bestCols files W
        = bestCols files W * chosenRows files W := Nat.mul_comm _ _
    omega
  have hieq : (i / chosenRows files W) * chosenRows files W
      + i % chosenRows files W = i := by
    rw [Nat.mul_comm]
    exact Nat.div_add_mod i (chosenRows files W)
  rw [hcell (i % chosenRows files W) (i / chosenRows files W),
    if_pos ⟨hr, hc, by rw [hieq]; exact hi⟩, hieq]

/-- Witness for C2: with entries `a b c` and width 20 the layout is a
single row of three columns; the cell at row 0, position 1 holds the
second entry. -/
theorem C2_witness : gridCell demoFiles 20 0 1 = some ['b'] := by
  have h := (C2_grid_column_major demoFiles 20 (by decide)).1 0 1
  rw [h]
  decide

/-- C10: at every rendered grid position holding an entry, the raw
separator width `colWidths[col] - displayLen + padding` is at least the
padding 2 (each column's width is the maximum visible length over its
entries), so the minimum-one-space clamp in `sepSpaces` never fires. -/
theorem C10_separator_never_clamped (files : List Entry) (W r col : Nat)
    (hcol : col < bestCols files W - 1)
    (hr : r < chosenRows files W)
    (hidx : col * chosenRows files W + r < files.length) :
    2 ≤ sepSpacesRaw files (chosenRows files W) col
        (files.getD (col * chosenRows files W + r) [])
    ∧ sepSpaces files (chosenRows files W) col
        (files.getD (col * chosenRows files W + r) [])
      = sepSpacesRaw files (chosenRows files W) col
          (files.getD (col * chosenRows files W + r) []) := by
  have h1 : visLen (files.getD (col * chosenRows files W + r) [])
      ≤ colWidth files (chosenRows files W) col :=
    visLen_le_colWidth files hr hidx
  have h2 : 2 ≤ sepSpacesRaw files (chosenRows files W) col
      (files.getD (col * chosenRows files W + r) []) := by
    simp only [sepSpacesRaw, padding]
    omega
  refine ⟨h2, ?_⟩
  simp only [sepSpaces]
  rw [if_neg (by omega)]

/-- Witness for C10 at the `a b c` layout. -/
theorem C10_witness :
    2 ≤ sepSpacesRaw demoFiles (chosenRows demoFiles 20) 0
        (demoFiles.getD (0 * chosenRows demoFiles 20 + 0) [])
    ∧ sepSpaces demoFiles (chosenRows demoFiles 20) 0
        (demoFiles.getD (0 * chosenRows demoFiles 20 + 0) [])
      = sepSpacesRaw demoFiles (chosenRows demoFiles 20) 0
          (demoFiles.getD (0 * chosenRows demoFiles 20 + 0) []) :=
  C10_separator_never_clamped demoFiles 20 0 0 (by decide) (by decide)
    (by decide)

/-- C8: a failed terminal-width query or a non-positive reported width
falls back to the fixed width 80; a positive reported width is used as
is. -/
theorem C8_width_fallback :
    effectiveWidth none = 80
    ∧ (∀ w : Int, w ≤ 0 → effectiveWidth (some w) = 80)
    ∧ (∀ w : Int, 1 ≤ w → effectiveWidth (some w) = w) := by
  refine ⟨rfl, ?_, ?_⟩
  · intro w hw
    simp only [effectiveWidth, getTerminalWidth]
    rw [if_pos (by omega)]
  · intro w hw
    simp only [effectiveWidth, getTerminalWidth]
    rw [if_neg (by omega)]

/-- Witness for C8: width 0 falls back to 80, width 120 is kept. -/
theorem C8_witness :
    effectiveWidth (some 0) = 80 ∧ effectiveWidth (some 120) = 120 :=
  ⟨C8_width_fallback.2.1 0 (by norm_num),
   C8_width_fallback.2.2 120 (by norm_num)⟩

/-- C9: with zero entries nothing is rendered, whatever the terminal
width (and the program returns from `main` normally, i.e. with success
status). -/
theorem C9_empty_output : ∀ W : Nat, renderLines [] W = [] :=
  fun _ => rfl

end LsOverride
